import Mathlib

/-!
Verification development for the content indexing and retrieval pipeline of a
RAG textbook-assistant backend.  Python text values are modelled as `List Char`
(a Python `str` is a sequence of characters); the pure string operations the
pipeline uses (`str.strip`, `str.split("\n\n")`, `"\n\n".join`, regex scanning
for fenced code blocks) are given as executable functions with the same
semantics.  The subword tokenizer (tiktoken) is an external library and is
modelled as a parameter `tc : List Char → Nat` (the length of the token
encoding of a string); concrete evaluations use `tcModel`, which agrees with
the cl100k_base encoder on the short ASCII inputs used there.
-/

namespace Spec2Proof

/-- Python `str` whitespace predicate, as used by `str.strip()` with no
argument: space, tab, newline, carriage return, vertical tab, form feed. -/
def pyWs (c : Char) : Bool :=
  c = ' ' || c = '\t' || c = '\n' || c = '\r' || c = '\x0b' || c = '\x0c'

/-- Python `str.strip()` on a character sequence: drop whitespace from both
ends. -/
def pyStrip (l : List Char) : List Char :=
  ((l.dropWhile pyWs).reverse.dropWhile pyWs).reverse

/-- The two-character paragraph separator `"\n\n"` used by
`ContentChunker._create_text_chunks` (`content.split("\n\n")` and the
re-joining `current_chunk_text += "\n\n" + para`). -/
def blank : List Char := ['\n', '\n']

/-- Helper for `pySplit2`: prepend a character to the first piece of a split
result. -/
def consHead (c : Char) : List (List Char) → List (List Char)
  | [] => [[c]]
  | g :: gs => (c :: g) :: gs

/-- Python `content.split("\n\n")`: non-overlapping left-to-right splitting on
the two-newline separator, keeping empty pieces (as Python `str.split` with an
explicit separator does). -/
def pySplit2 : List Char → List (List Char)
  | '\n' :: '\n' :: rest => [] :: pySplit2 rest
  | c :: rest => consHead c (pySplit2 rest)
  | [] => [[]]

/-- Python `"\n\n".join(pieces)`. -/
def joinB : List (List Char) → List Char
  | [] => []
  | [x] => x
  | x :: y :: xs => x ++ blank ++ joinB (y :: xs)

theorem consHead_ne_nil (c : Char) (gs : List (List Char)) :
    consHead c gs ≠ [] := by
  cases gs <;> simp [consHead]

theorem joinB_consHead (c : Char) {gs : List (List Char)} (h : gs ≠ []) :
    joinB (consHead c gs) = c :: joinB gs := by
  match gs with
  | [] => exact absurd rfl h
  | [g] => simp [consHead, joinB]
  | g :: g' :: gs' => simp [consHead, joinB]

theorem pySplit2_ne_nil (l : List Char) : pySplit2 l ≠ [] := by
  induction l using pySplit2.induct with
  | case1 rest ih => simp [pySplit2]
  | case2 c rest h ih =>
    rw [pySplit2.eq_def]
    split
    · simp
    · exact consHead_ne_nil _ _
    · simp
  | case3 => simp [pySplit2]

theorem joinB_pySplit2 (l : List Char) : joinB (pySplit2 l) = l := by
  induction l using pySplit2.induct with
  | case1 rest ih =>
    have hne := pySplit2_ne_nil rest
    rw [pySplit2]
    cases h : pySplit2 rest with
    | nil => exact absurd h hne
    | cons g gs =>
      rw [h] at ih
      simp [joinB, blank, ih]
  | case2 c rest h ih =>
    have hne := pySplit2_ne_nil rest
    have hstep : pySplit2 (c :: rest) = consHead c (pySplit2 rest) := by
      rw [pySplit2.eq_def]
      split
      · rename_i rest' heq
        injection heq with h1 h2
        exact absurd h2 (by intro hh; exact h rest' (by simp [h1]) (by simp [hh]))
      · rename_i c' rest' heq
        injection heq with h1 h2
        subst h1; subst h2; rfl
      · rename_i heq; cases heq
    rw [hstep, joinB_consHead c hne, ih]
  | case3 => simp [pySplit2, joinB]

theorem pyStrip_eq_nil_all_ws {l : List Char} (h : pyStrip l = []) :
    ∀ c ∈ l, pyWs c = true := by
  unfold pyStrip at h
  have h2 : (l.dropWhile pyWs).reverse.dropWhile pyWs = [] := by
    have := congrArg List.reverse h
    simpa using this
  have h3 : ∀ c ∈ (l.dropWhile pyWs).reverse, pyWs c = true :=
    List.dropWhile_eq_nil_iff.mp h2
  have h4 : ∀ c ∈ l.dropWhile pyWs, pyWs c = true := by
    intro c hc
    exact h3 c (List.mem_reverse.mpr hc)
  intro c hc
  rcases List.mem_append.mp
      (by rw [List.takeWhile_append_dropWhile (p := pyWs) (l := l)]; exact hc) with h5 | h5
  · exact List.mem_takeWhile_imp h5
  · exact h4 c h5

/-! Fenced code block scanning, from `MarkdownParser`:
`CODE_BLOCK_PATTERN = re.compile(r"```(\w*)\n(.*?)```", re.DOTALL)` together
with `extract_code_blocks` (via `finditer`) and `has_code_blocks` (via
`search`).  `finditer` on this pattern scans positions left to right; at a
position starting with three backticks it takes the maximal run of word
characters, requires a newline, and then takes the lazily-shortest body up to
the next three backticks; when the match fails, scanning resumes one character
later, and after a match it resumes after the closing fence. -/

/-- Python regex `\w` on the ASCII inputs of interest: letters, digits and
underscore. -/
def wordChar (c : Char) : Bool := c.isAlphanum || c = '_'

/-- Split a character sequence at the first occurrence of three consecutive
backticks, the closing fence for the lazy group `(.*?)` of the code-block
pattern; `none` if there is no closing fence. -/
def splitFence : List Char → Option (List Char × List Char)
  | '`' :: '`' :: '`' :: rest => some ([], rest)
  | c :: rest => (splitFence rest).map (fun p => (c :: p.1, p.2))
  | [] => none

theorem splitFence_length {l a b : List Char} (h : splitFence l = some (a, b)) :
    b.length + 3 ≤ l.length := by
  induction l using splitFence.induct generalizing a b with
  | case1 rest =>
    rw [splitFence] at h
    injection h with h1
    injection h1 with h2 h3
    subst h3; simp
  | case2 c rest hguard ih =>
    have hstep : splitFence (c :: rest) =
        (splitFence rest).map (fun p => (c :: p.1, p.2)) := by
      rw [splitFence.eq_def]
      split
      · rename_i rest' heq
        injection heq with h1 h2
        exact (hguard rest' h1 h2).elim
      · rename_i c' rest' heq
        injection heq with h1 h2
        subst h1; subst h2; rfl
      · rename_i heq; cases heq
    rw [hstep] at h
    cases hr : splitFence rest with
    | none => rw [hr] at h; cases h
    | some p =>
      rw [hr] at h
      injection h with h1
      have := ih (a := p.1) (b := p.2) (by rw [hr])
      have hb : b = p.2 := by
        cases p; injection h1 with h2 h3; simp_all
      subst hb
      simp at this ⊢
      omega
  | case3 =>
    rw [splitFence] at h
    cases h

/-- Attempt to match the code-block pattern at the current position: three
backticks, a maximal run of word characters (the `(\w*)` language tag —
maximality is forced since no shorter run can be followed by the required
newline), a newline, then the lazily-shortest body up to a closing fence.
Returns `(language_tag, body, remainder_after_closing_fence)`. -/
def tryOpen : List Char → Option (List Char × List Char × List Char)
  | '`' :: '`' :: '`' :: rest =>
    match rest.dropWhile wordChar with
    | '\n' :: body =>
      match splitFence body with
      | some p => some (rest.takeWhile wordChar, p.1, p.2)
      | none => none
    | _ => none
  | _ => none

theorem tryOpen_length {l lang code rem : List Char}
    (h : tryOpen l = some (lang, code, rem)) : rem.length < l.length := by
  rw [tryOpen.eq_def] at h
  split at h
  · rename_i tail
    split at h
    · rename_i body hdw
      split at h
      · rename_i p hs
        injection h with h1
        have hrem : rem = p.2 := by
          injection h1 with h2 h3
          injection h3 with h4 h5
          exact h5.symm
        subst hrem
        have hlen := splitFence_length (a := p.1) (b := p.2) (by rw [hs])
        have hdl : (tail.dropWhile wordChar).length ≤ tail.length :=
          (List.dropWhile_sublist wordChar).length_le
        rw [hdw] at hdl
        simp only [List.length_cons] at hdl ⊢
        omega
      · cases h
    · cases h
  · cases h

/-- The `finditer` scan of the code-block pattern: try a match at the current
position; on success continue after the closing fence, on failure advance one
character.  The fuel argument (instantiated with the input length, which
`scanAux_fuel` shows is always enough) makes the recursion structural. -/
def scanAux : Nat → List Char → List (List Char × List Char)
  | _, [] => []
  | 0, _ :: _ => []
  | f + 1, c :: rest =>
    match tryOpen (c :: rest) with
    | some (lang, code, rem) => (lang, code) :: scanAux f rem
    | none => scanAux f rest

/-- All matches of `CODE_BLOCK_PATTERN` in a text, as `(language_tag, body)`
pairs, in order. -/
def scanBlocks (l : List Char) : List (List Char × List Char) :=
  scanAux l.length l

theorem scanAux_fuel (f₁ : Nat) :
    ∀ (f₂ : Nat) (l : List Char), l.length ≤ f₁ → l.length ≤ f₂ →
      scanAux f₁ l = scanAux f₂ l := by
  induction f₁ with
  | zero =>
    intro f₂ l h1 h2
    have : l = [] := List.length_eq_zero.mp (Nat.le_zero.mp h1)
    subst this
    cases f₂ <;> rfl
  | succ f ih =>
    intro f₂ l h1 h2
    cases l with
    | nil => cases f₂ <;> rfl
    | cons c rest =>
      cases f₂ with
      | zero => simp at h2
      | succ f₂' =>
        simp only [List.length_cons] at h1 h2
        rw [scanAux, scanAux]
        cases ht : tryOpen (c :: rest) with
        | none =>
          exact ih f₂' rest (by omega) (by omega)
        | some t =>
          obtain ⟨lang, code, rem⟩ := t
          have hlen := tryOpen_length ht
          simp only [List.length_cons] at hlen
          dsimp only
          rw [ih f₂' rem (by omega) (by omega)]

/-- `MarkdownParser.extract_code_blocks`: each match yields a dict with the
language tag (defaulting to `"text"` when absent) and the stripped body. -/
def extractCodeBlocks (content : List Char) : List (List Char × List Char) :=
  (scanBlocks content).map
    (fun b => (if b.1 = [] then "text".toList else b.1, pyStrip b.2))

/-- `MarkdownParser.has_code_blocks`: `bool(CODE_BLOCK_PATTERN.search(content))`,
which is true exactly when the pattern has at least one match. -/
def hasCodeBlocks (content : List Char) : Bool :=
  !(scanBlocks content).isEmpty

theorem scanAux_all_ws {f : Nat} :
    ∀ {l : List Char}, (∀ c ∈ l, pyWs c = true) → scanAux f l = [] := by
  induction f with
  | zero => intro l h; cases l <;> rfl
  | succ f ih =>
    intro l h
    cases l with
    | nil => rfl
    | cons c rest =>
      have hc : pyWs c = true := h c (by simp)
      have hcb : c ≠ '`' := by
        intro hcc
        subst hcc
        simp [pyWs] at hc
      have ht : tryOpen (c :: rest) = none := by
        rw [tryOpen.eq_def]
        split
        · rename_i heq
          injection heq with h1 h2
          exact absurd h1 hcb
        · rfl
      rw [scanAux, ht]
      exact ih (fun c hcm => h c (by simp [hcm]))

theorem hasCodeBlocks_of_ws {content : List Char}
    (h : ∀ c ∈ content, pyWs c = true) : hasCodeBlocks content = false := by
  unfold hasCodeBlocks scanBlocks
  rw [scanAux_all_ws h]
  rfl

/-! Chunker data model, from `app/models/chunk.py` and
`app/services/chunker.py` (`ContentChunker`). -/

/-- The `chunk_type` values used by the pipeline: `"text_with_code"` and
`"code_only"` from `ContentChunker`, `"selection"` from
`RetrievalService.retrieve_selection`. -/
inductive ChunkType where
  | text_with_code
  | code_only
  | selection
deriving DecidableEq, Repr

/-- Metadata attached to a chunk by `ContentChunker._build_metadata`; code
chunks additionally carry a `language` key. -/
structure ChunkMeta where
  sourceFile : List Char
  sectionTitle : List Char
  headingHierarchy : List (List Char)
  chunkIndex : Nat
  headingLevel : Nat
  lineNumber : Nat
  language : Option (List Char) := none
deriving DecidableEq, Repr

/-- A markdown section as produced by `MarkdownParser._extract_sections`. -/
structure MarkdownSection where
  heading : List Char
  level : Nat
  content : List Char
  headingHierarchy : List (List Char)
  sourceFile : List Char
  lineNumber : Nat
deriving DecidableEq, Repr

/-- A content chunk ready for embedding (`ContentChunk`; the embedding field
is populated later by the embedder and plays no role in chunking). -/
structure ContentChunk where
  text : List Char
  meta : ChunkMeta
  chunkType : ChunkType
deriving DecidableEq, Repr

/-- `ContentChunker._build_metadata`. -/
def buildMetadata (sec : MarkdownSection) (chunkIndex : Nat) : ChunkMeta :=
  { sourceFile := sec.sourceFile
    sectionTitle := sec.heading
    headingHierarchy := sec.headingHierarchy
    chunkIndex := chunkIndex
    headingLevel := sec.level
    lineNumber := sec.lineNumber }

/-- `ContentChunker._create_chunk`. -/
def mkChunk (text : List Char) (sec : MarkdownSection) (chunkIndex : Nat)
    (ty : ChunkType) : ContentChunk :=
  { text := text, meta := buildMetadata sec chunkIndex, chunkType := ty }

/-- The paragraph-accumulation loop of `ContentChunker._create_text_chunks`
(the `for para in paragraphs` loop plus the final flush).  State: emitted
chunks, `current_chunk_text`, `current_tokens`, `chunk_count`; `tc` is the
token counter `len(self.encoding.encode(·))`. -/
def textGo (tc : List Char → Nat) (maxT : Nat) (sec : MarkdownSection)
    (start : Nat) (ty : ChunkType) :
    List (List Char) → List ContentChunk → List Char → Nat → Nat →
      List ContentChunk
  | [], chunks, cur, _, count =>
    if cur = [] then chunks else chunks ++ [mkChunk cur sec (start + count) ty]
  | p :: ps, chunks, cur, curTok, count =>
    if curTok + tc p ≤ maxT then
      textGo tc maxT sec start ty ps chunks
        (if cur = [] then p else cur ++ blank ++ p) (curTok + tc p) count
    else
      if cur = [] then
        textGo tc maxT sec start ty ps chunks p (tc p) count
      else
        textGo tc maxT sec start ty ps
          (chunks ++ [mkChunk cur sec (start + count) ty]) p (tc p) (count + 1)

/-- `ContentChunker._create_text_chunks`: strip the section body; empty bodies
produce no chunks; bodies within the token budget produce a single chunk;
otherwise split on `"\n\n"` and accumulate paragraphs greedily. -/
def createTextChunks (tc : List Char → Nat) (maxT : Nat)
    (sec : MarkdownSection) (start : Nat) (ty : ChunkType) :
    List ContentChunk :=
  let content := pyStrip sec.content
  if content = [] then []
  else if tc content ≤ maxT then [mkChunk content sec start ty]
  else textGo tc maxT sec start ty (pySplit2 content) [] [] 0 0

/-- The `for i, code_block in enumerate(code_blocks)` loop of
`ContentChunker._create_code_chunks`: the i-th extracted block becomes a
`code_only` chunk with index `start_index + i` and its language in the
metadata. -/
def codeGo (sec : MarkdownSection) : Nat → List (List Char × List Char) →
    List ContentChunk
  | _, [] => []
  | i, b :: bs =>
    { text := b.2
      meta := { buildMetadata sec i with language := some b.1 }
      chunkType := ChunkType.code_only } :: codeGo sec (i + 1) bs

/-- `ContentChunker._create_code_chunks`. -/
def createCodeChunks (sec : MarkdownSection) (start : Nat) :
    List ContentChunk :=
  codeGo sec start (extractCodeBlocks sec.content)

/-- The per-section loop of `ContentChunker.chunk_sections`, threading the
document-local `chunk_index` counter. -/
def chunkGo (tc : List Char → Nat) (maxT : Nat) :
    List MarkdownSection → Nat → List ContentChunk
  | [], _ => []
  | sec :: rest, idx =>
    if hasCodeBlocks sec.content then
      let t := createTextChunks tc maxT sec idx ChunkType.text_with_code
      let c := createCodeChunks sec (idx + t.length)
      t ++ c ++ chunkGo tc maxT rest (idx + t.length + c.length)
    else
      let t := createTextChunks tc maxT sec idx ChunkType.text_with_code
      t ++ chunkGo tc maxT rest (idx + t.length)

/-- `ContentChunker.chunk_sections`. -/
def chunkSections (tc : List Char → Nat) (maxT : Nat)
    (sections : List MarkdownSection) : List ContentChunk :=
  chunkGo tc maxT sections 0

/-- Executable stand-in for the tiktoken `cl100k_base` encoder's token count,
valid on the short ASCII inputs used in concrete evaluations below: it counts
maximal runs of letters, of newlines and of other characters, which matches
the encoder on such inputs (a short letter run, a `"\n\n"` separator and a
short backtick run are one token each). -/
def tcCount (k : Nat) : List Char → Nat
  | [] => 0
  | c :: rest =>
    let k' := if c.isAlpha then 0 else if c = '\n' then 1 else 2
    if k' = k then tcCount k rest else 1 + tcCount k' rest

/-- Token-count model entry point (see `tcCount`). -/
def tcModel : List Char → Nat
  | [] => 0
  | c :: rest =>
    1 + tcCount (if c.isAlpha then 0 else if c = '\n' then 1 else 2) rest

/-! Heading-hierarchy tracking of `MarkdownParser._extract_sections`: a stack
of `(level, heading)` pairs (bottom first, top last, as the Python list); for
each heading match, entries with level ≥ the new level are popped from the
top, the new heading is pushed, and the section's `heading_hierarchy` is the
stack without its top entry, mapped to the heading strings. -/

/-- Drop the maximal suffix of a list whose elements satisfy `p` (popping a
Python list from its end while the top satisfies `p`). -/
def dropEndWhile (p : α → Bool) : List α → List α
  | [] => []
  | a :: l =>
    match dropEndWhile p l with
    | [] => if p a then [] else [a]
    | b :: l' => a :: b :: l'

/-- One iteration of the hierarchy loop: pop while the stack top has level
≥ the new heading's level, then push the new heading. -/
def hierStep (st : List (Nat × String)) (h : Nat × String) :
    List (Nat × String) :=
  dropEndWhile (fun q => decide (h.1 ≤ q.1)) st ++ [h]

/-- The stack contents just after each push, one entry per heading match, in
document order. -/
def hierGo (st : List (Nat × String)) : List (Nat × String) →
    List (List (Nat × String))
  | [] => []
  | h :: hs =>
    let st' := hierStep st h
    st' :: hierGo st' hs

/-- Per-heading stacks for a whole document (initial stack empty). -/
def hierStacks (hs : List (Nat × String)) : List (List (Nat × String)) :=
  hierGo [] hs

/-- The `heading_hierarchy` value of each section:
`[h for _, h in hierarchy_stack[:-1]]` at the time the section is created. -/
def sectionHierarchies (hs : List (Nat × String)) : List (List String) :=
  (hierStacks hs).map (fun st => st.dropLast.map Prod.snd)

/-! Vector-store state and the publish/swap step of
`IndexingService.reindex_full` (step 4, `indexer.py` lines 167-183).  A
`VectorDB` holds named collections with their point counts and the alias
table; `resolveName` is how a reader's query resolves a name (a collection of
that exact name, else the alias target). -/

/-- Vector store state: collections as `(name, points_count)` and aliases as
`(alias_name, collection_name)`. -/
structure VectorDB where
  collections : List (String × Nat)
  aliases : List (String × String)
deriving DecidableEq, Repr

/-- Look up a collection by exact name. -/
def findCollection (db : VectorDB) (n : String) : Option (String × Nat) :=
  db.collections.find? (fun c => c.1 == n)

/-- Resolve a name as a reader's query does: a collection of that exact name,
otherwise the collection an alias of that name points to. -/
def resolveName (db : VectorDB) (n : String) : Option (String × Nat) :=
  match findCollection db n with
  | some c => some c
  | none =>
    match db.aliases.find? (fun a => a.1 == n) with
    | some a => findCollection db a.2
    | none => none

/-- `client.delete_collection(name)`. -/
def deleteCollection (db : VectorDB) (n : String) : VectorDB :=
  { db with collections := db.collections.filter (fun c => c.1 != n) }

/-- A `create_alias` operation of `client.update_collection_aliases`: the
alias is (re)pointed at the target collection. -/
def createAlias (db : VectorDB) (aliasN target : String) : VectorDB :=
  { db with
    aliases := (aliasN, target) :: db.aliases.filter (fun a => a.1 != aliasN) }

/-- The sequence of states the store passes through during step 4 of
`reindex_full`: if a collection occupies the alias name it is deleted first,
then the alias is created pointing at the staging collection.  Each list entry
is a state a concurrent reader can observe. -/
def swapStates (db : VectorDB) (temp aliasN : String) : List VectorDB :=
  if (db.collections.map Prod.fst).contains aliasN then
    let db1 := deleteCollection db aliasN
    [db, db1, createAlias db1 aliasN temp]
  else
    [db, createAlias db aliasN temp]

/-- The state left behind when the `update_collection_aliases` call (the
publish) raises after the delete step already ran. -/
def swapPublishFails (db : VectorDB) (aliasN : String) : VectorDB :=
  if (db.collections.map Prod.fst).contains aliasN then
    deleteCollection db aliasN
  else db

/-- The summary returned by `reindex_full` (`ReindexResponse` without the
duration, which is wall-clock time). -/
structure ReindexSummary where
  status : String
  totalFiles : Nat
  totalChunks : Nat
deriving DecidableEq, Repr

/-- `IndexingService.index_documents` on parsed inputs: one entry per
discovered markdown file, `none` when parsing raised (the file is logged and
skipped) and `some sections` otherwise; files whose section list is empty are
skipped.  Returns `(total_files, all_chunks)`. -/
def indexDocuments (tc : List Char → Nat) (maxT : Nat)
    (docs : List (Option (List MarkdownSection))) : Nat × List ContentChunk :=
  (docs.length,
    docs.foldl
      (fun acc d =>
        match d with
        | none => acc
        | some secs =>
          if secs = [] then acc
          else
            let cs := chunkSections tc maxT secs
            if cs = [] then acc else acc ++ cs)
      [])

/-- `IndexingService.reindex_full`: create the staging collection, index and
embed the documents, upload, swap.  The booleans say whether the
create-collection, embedding and publish calls succeed; any raised step lands
in the `except` branch, which returns `status="failed"` with zeroed counts.
Embedding is only invoked when there are chunks. -/
def reindexFull (tc : List Char → Nat) (maxT : Nat)
    (docs : List (Option (List MarkdownSection)))
    (createOk embedOk publishOk : Bool) : ReindexSummary :=
  if createOk = false then ⟨"failed", 0, 0⟩
  else
    let r := indexDocuments tc maxT docs
    if r.2 ≠ [] ∧ embedOk = false then ⟨"failed", 0, 0⟩
    else if publishOk = false then ⟨"failed", 0, 0⟩
    else ⟨"completed", r.1, r.2.length⟩

/-! Selection-mode query paths.  The repository has two answer pipelines:
`RetrievalService.retrieve_selection` + `ResponseService` (used by the
`/query/selection` endpoint) and `rag_query` (used by the `/chat` endpoint).
The chat-completion model is an external collaborator, modelled as a function
parameter from the assembled messages to the answer text. -/

/-- A citation as built by `rag_query` / `assemble_context_and_citations`
(`app/models/schemas.py` `Citation`). -/
structure Citation where
  docPath : String
  heading : String
  snippet : String
deriving DecidableEq, Repr

/-- Payload of a scored point returned by the vector search in `rag.py`. -/
structure SPoint where
  chunkText : String
  docPath : String
  heading : String
deriving DecidableEq, Repr

/-- The chunk built by `RetrievalService.retrieve_selection`: the caller's
selected text wrapped with `metadata={"source": "user_selection"}` and
`chunk_type="selection"`, and no embedding. -/
structure SelectionChunk where
  text : String
  source : String
  chunkType : String
deriving DecidableEq, Repr

/-- `RetrievalService.retrieve_selection`: wraps the selected text, performing
no vector search. -/
def retrieveSelection (selectedText : String) : List SelectionChunk :=
  [{ text := selectedText, source := "user_selection",
     chunkType := "selection" }]

/-- `ResponseService._build_selection_user_prompt`. -/
def selectionUserPrompt (question selectedText : String) : String :=
  "Selected text:\n\n" ++ selectedText ++
    "\n\n---\n\nQuestion: " ++ question ++
    "\n\nPlease answer the question based ONLY on the selected text above.\n"

/-- `ResponseService.generate_response_selection` (via
`generate_selection_answer`): the chat model sees only the selection-mode
system prompt and the user prompt built from the question and the selected
text; the returned citations are the empty list.  `chat` is the external
chat-completion call on the `(role, content)` message list. -/
def generateResponseSelection (chat : List (String × String) → String)
    (sysPrompt : String) (question selectedText : String) :
    String × List Citation :=
  (chat [("system", sysPrompt),
         ("user", selectionUserPrompt question selectedText)], [])

/-- The snippet built for the selection-mode citation in `rag_query`:
`selected_text[:150] + ("..." if len(selected_text) > 150 else "")`. -/
def selSnippet (t : String) : String :=
  t.take 150 ++ (if 150 < t.length then "..." else "")

/-- Python `doc_path or "unknown"` on an optional string. -/
def orUnknown : Option String → String
  | some s => if s = "" then "unknown" else s
  | none => "unknown"

/-- Python f-string rendering of an optional string (`None` prints as
`"None"`). -/
def fmtOpt : Option String → String
  | some s => s
  | none => "None"

/-- The context assembled by the selection branch of `rag_query`:
`f"Selected passage from {doc_path}:\n\n{selected_text}"`. -/
def selContext (docPath : Option String) (selectedText : String) : String :=
  "Selected passage from " ++ fmtOpt docPath ++ ":\n\n" ++ selectedText

/-- One step of the context/citation assembly loop of
`assemble_context_and_citations`: stops (Python `break`) when the next chunk
part would exceed the character budget. -/
def assembleGo (maxLen : Nat) :
    List SPoint → Nat → Nat → List String → List String → List Citation →
      List String × List Citation
  | [], _, _, parts, _, cits => (parts, cits)
  | p :: ps, idx, curLen, parts, seen, cits =>
    let part := "[Source " ++ toString idx ++ "] " ++ p.heading ++ "\n" ++
      p.chunkText ++ "\n"
    if maxLen < curLen + part.length then (parts, cits)
    else
      let key := p.docPath ++ "::" ++ p.heading
      if key ∈ seen then
        assembleGo maxLen ps (idx + 1) (curLen + part.length)
          (parts ++ [part]) seen cits
      else
        let snip := (p.chunkText.take 150).trim ++
          (if 150 < p.chunkText.length then "..." else "")
        assembleGo maxLen ps (idx + 1) (curLen + part.length)
          (parts ++ [part]) (key :: seen)
          (cits ++ [{ docPath := p.docPath, heading := p.heading,
                      snippet := snip }])

/-- `assemble_context_and_citations`: context parts joined by `"\n"` and the
deduplicated citations. -/
def assembleContextAndCitations (results : List SPoint) (maxLen : Nat) :
    String × List Citation :=
  let r := assembleGo maxLen results 1 0 [] [] []
  (String.intercalate "\n" r.1, r.2)

/-- `rag_query`: mode dispatch.  `search` is the semantic-search collaborator
(query embedding plus vector search); `chat` is the chat-completion
collaborator applied to the assembled context.  The boolean in the result
records whether the vector search was invoked during the run. -/
def ragQuery (mode : String) (question : String)
    (selectedText : String) (docPath : Option String)
    (search : String → List SPoint) (chat : String → String) :
    Except String (String × List Citation × Bool) :=
  if mode = "whole-book" then
    let results := search question
    let r := assembleContextAndCitations results 6000
    Except.ok (chat r.1, r.2, true)
  else if mode = "selection" then
    let context := selContext docPath selectedText
    let cits := [{ docPath := orUnknown docPath, heading := "Selected Text",
                   snippet := selSnippet selectedText : Citation }]
    Except.ok (chat context, cits, false)
  else
    Except.error ("Invalid mode: " ++ mode)

/-! Embedder retry loop, `EmbeddingService._embed_texts_with_retry`.  The
provider call is a collaborator, modelled as a function from the attempt
number (1-based) to that attempt's outcome.  Python dispatches on the
exception class: `RateLimitError` and every other `OpenAIError` are retried
with backoff `2 ** attempt` seconds; any other exception propagates
immediately.  `retryable` on a provider error records whether the error is
semantically transient (e.g. a timeout) or not (e.g. invalid credentials) —
the except clauses do not consult it. -/

/-- Outcome classes of one embedding API call, by Python exception class. -/
inductive EmbedErr where
  | rateLimit
  | providerError (retryable : Bool)
  | unexpected
  | exhausted
deriving DecidableEq, Repr

/-- The retry loop: `remaining` counts the loop iterations left
(`max_retries + 1 - attempt`); `made` counts attempts performed and `waits`
the backoff sleeps, in order.  Falling out of the loop raises the final
`OpenAIError` (`exhausted`), reachable only when `max_retries = 0`. -/
def retryGo (attempts : Nat → Except EmbedErr α) (maxRetries : Nat) :
    Nat → Nat → Nat → List Nat → Except EmbedErr α × Nat × List Nat
  | 0, _, made, waits => (Except.error EmbedErr.exhausted, made, waits)
  | r + 1, attempt, made, waits =>
    match attempts attempt with
    | Except.ok v => (Except.ok v, made + 1, waits)
    | Except.error EmbedErr.rateLimit =>
      if attempt < maxRetries then
        retryGo attempts maxRetries r (attempt + 1) (made + 1)
          (waits ++ [2 ^ attempt])
      else (Except.error EmbedErr.rateLimit, made + 1, waits)
    | Except.error (EmbedErr.providerError b) =>
      if attempt < maxRetries then
        retryGo attempts maxRetries r (attempt + 1) (made + 1)
          (waits ++ [2 ^ attempt])
      else (Except.error (EmbedErr.providerError b), made + 1, waits)
    | Except.error e => (Except.error e, made + 1, waits)

/-- `_embed_texts_with_retry`: run the loop for attempts `1 .. max_retries`;
returns the result, the number of attempts made and the backoff waits. -/
def embedWithRetry (maxRetries : Nat) (attempts : Nat → Except EmbedErr α) :
    Except EmbedErr α × Nat × List Nat :=
  retryGo attempts maxRetries maxRetries 1 0 []

/-! Concrete fixtures for evaluations. -/

/-- A section whose stripped body is `"a\n\nb\n\nc"`: three one-token
paragraphs. -/
def secThreeParas : MarkdownSection :=
  { heading := "H".toList, level := 1, content := "a\n\nb\n\nc".toList,
    headingHierarchy := [], sourceFile := "f.md".toList, lineNumber := 1 }

/-- A section containing one fenced code block followed by two blank lines
(an empty paragraph) and a trailing paragraph. -/
def secCodeGap : MarkdownSection :=
  { heading := "H".toList, level := 1,
    content := "```\nA\n```\n\n\n\ny".toList,
    headingHierarchy := [], sourceFile := "f.md".toList, lineNumber := 1 }

/-- A section whose body is only whitespace. -/
def secWs : MarkdownSection :=
  { heading := "W".toList, level := 2, content := " \n \n ".toList,
    headingHierarchy := [], sourceFile := "f.md".toList, lineNumber := 3 }

/-- A plain one-paragraph section. -/
def secPlain : MarkdownSection :=
  { heading := "P".toList, level := 1, content := "hello".toList,
    headingHierarchy := [], sourceFile := "f.md".toList, lineNumber := 5 }

/-- Whether one embedding attempt's outcome is caught by a retrying except
clause (`RateLimitError` or any other `OpenAIError`). -/
def isRetryableErr : Except EmbedErr α → Bool
  | Except.error EmbedErr.rateLimit => true
  | Except.error (EmbedErr.providerError _) => true
  | _ => false

/-- Claim C1.  During the publish/swap step of `reindex_full`, every state
reachable by the swap's step relation should have the published name resolve
to a fully-populated generation.  The code violates this: when the previously
published generation is a collection named exactly like the alias (with 5
points here, the staging collection fully populated with 7), the swap deletes
that collection before creating the alias, and in the intermediate state the
published name resolves to nothing. -/
theorem claim_C1_alias_window :
    ∃ s ∈ swapStates { collections := [("chunks", 5), ("chunks_temp_1", 7)],
                       aliases := [] } "chunks_temp_1" "chunks",
      resolveName s "chunks" = none := by
  decide

/-- Claim C2.  The previous generation should be deleted only after a
successful publish, and a failed publish should leave it live.  The code
violates this: when the previous generation occupies the alias name directly,
it is deleted before `update_collection_aliases` is called, so if that call
raises, the previous generation is gone, the published name resolves to
nothing, and only the staging collection remains. -/
theorem claim_C2_delete_before_publish :
    resolveName
        (swapPublishFails
          { collections := [("chunks", 5), ("chunks_temp_1", 7)],
            aliases := [] } "chunks") "chunks" = none
    ∧ findCollection
        (swapPublishFails
          { collections := [("chunks", 5), ("chunks_temp_1", 7)],
            aliases := [] } "chunks") "chunks" = none
    ∧ findCollection
        (swapPublishFails
          { collections := [("chunks", 5), ("chunks_temp_1", 7)],
            aliases := [] } "chunks") "chunks_temp_1" =
        some ("chunks_temp_1", 7) := by
  decide

/-- Claim C3, counterexample: a reindex run over an existing but empty corpus
directory (no documents, every vector-store step succeeding) returns
`status = "completed"` with `total_chunks = 0`, not `status = "failed"` as the
claim states. -/
theorem claim_C3_counterexample :
    reindexFull tcModel 2 [] true true true =
      { status := "completed", totalFiles := 0, totalChunks := 0 }
    ∧ (reindexFull tcModel 2 [] true true true).status ≠ "failed" := by
  decide

/-- Claim C3 (amended): a reindex run in which zero chunks are produced (in
particular a run over an existing but empty corpus directory) and in which no
step raises returns `status = "completed"` and `total_chunks = 0`; the
`failed` status is produced only by the exception path. -/
theorem claim_C3_amended (tc : List Char → Nat) (maxT : Nat)
    (docs : List (Option (List MarkdownSection)))
    (h : (indexDocuments tc maxT docs).2 = []) :
    reindexFull tc maxT docs true true true =
      { status := "completed", totalFiles := docs.length, totalChunks := 0 } := by
  have h1 : (indexDocuments tc maxT docs).1 = docs.length := rfl
  simp [reindexFull, h, h1]

/-- Witness for `claim_C3_amended` at the empty corpus. -/
theorem claim_C3_witness :
    reindexFull tcModel 2 [] true true true =
      { status := "completed", totalFiles := 0, totalChunks := 0 } :=
  claim_C3_amended tcModel 2 [] (by decide)

set_option maxRecDepth 8000 in
/-- Claim C4, counterexample: a selection-mode `rag_query` run returns one
synthetic citation (for the selection itself), not the empty citation
sequence the claim states. -/
theorem claim_C4_counterexample :
    ragQuery "selection" "q" "hello" (some "doc.md") (fun _ => [])
        (fun _ => "ans") =
      Except.ok ("ans",
        [{ docPath := "doc.md", heading := "Selected Text",
           snippet := "hello" }], false)
    ∧ ([{ docPath := "doc.md", heading := "Selected Text",
          snippet := "hello" : Citation }].length ≠ 0) := by
  constructor
  · rfl
  · decide

/-- Claim C4 (amended): in selection mode no vector search is performed (the
result is independent of the search collaborator and the search-invoked flag
is false), the context handed to the chat model is built only from the
caller-supplied selection and document path, the chunk wrapped by the
retriever is exactly the selected text, and the citations are empty on the
responder pipeline but are the single synthetic selection citation (heading
`"Selected Text"`, snippet from the selection) on the `rag_query` pipeline. -/
theorem claim_C4_amended (question selectedText : String)
    (docPath : Option String) (search searchB : String → List SPoint)
    (chat : String → String) (chatM : List (String × String) → String)
    (sysPrompt : String) :
    ragQuery "selection" question selectedText docPath search chat =
      Except.ok (chat (selContext docPath selectedText),
        [{ docPath := orUnknown docPath, heading := "Selected Text",
           snippet := selSnippet selectedText }], false)
    ∧ ragQuery "selection" question selectedText docPath search chat =
        ragQuery "selection" question selectedText docPath searchB chat
    ∧ (generateResponseSelection chatM sysPrompt question selectedText).2 = []
    ∧ (retrieveSelection selectedText).map SelectionChunk.text =
        [selectedText] := by
  exact ⟨rfl, rfl, rfl, rfl⟩

/-- Claim C10: a section whose body is empty or whitespace after stripping
contributes no chunks at all to `chunk_sections`, and the document-local
chunk index counter is not advanced for it — removing the section leaves the
output unchanged. -/
theorem claim_C10_ws_section_dropped (tc : List Char → Nat) (maxT : Nat)
    (s1 s2 : List MarkdownSection) (sec : MarkdownSection)
    (h : pyStrip sec.content = []) :
    chunkSections tc maxT (s1 ++ sec :: s2) = chunkSections tc maxT (s1 ++ s2) := by
  have hws : ∀ c ∈ sec.content, pyWs c = true := pyStrip_eq_nil_all_ws h
  have hcode : hasCodeBlocks sec.content = false := hasCodeBlocks_of_ws hws
  have htext : ∀ idx ty, createTextChunks tc maxT sec idx ty = [] := by
    intro idx ty
    simp [createTextChunks, h]
  have key : ∀ (s : List MarkdownSection) (idx : Nat),
      chunkGo tc maxT (s ++ sec :: s2) idx = chunkGo tc maxT (s ++ s2) idx := by
    intro s
    induction s with
    | nil =>
      intro idx
      simp only [List.nil_append]
      rw [chunkGo]
      rw [hcode]
      simp only [Bool.false_eq_true, if_false]
      rw [htext]
      simp
    | cons hd tl ih =>
      intro idx
      simp only [List.cons_append]
      rw [chunkGo, chunkGo]
      by_cases hc : hasCodeBlocks hd.content <;> simp [hc, ih]
  exact key s1 0

/-- Witness for `claim_C10_ws_section_dropped` at a concrete document. -/
theorem claim_C10_witness :
    chunkSections tcModel 2 ([secPlain] ++ secWs :: [secThreeParas]) =
      chunkSections tcModel 2 ([secPlain] ++ [secThreeParas]) :=
  claim_C10_ws_section_dropped tcModel 2 [secPlain] [secThreeParas] secWs
    (by decide)

/-- Claim C9, counterexample: with `max_retries = 3` and every attempt
raising a non-retryable provider error (an `OpenAIError` that is not a rate
limit, e.g. invalid credentials), the service does not propagate the error
immediately: it makes 3 attempts and sleeps twice, so "one attempt and no
backoff" is false. -/
theorem claim_C9_counterexample :
    ¬ ((embedWithRetry 3 (fun _ =>
          (Except.error (EmbedErr.providerError false) :
            Except EmbedErr Nat))).2.1 = 1
        ∧ (embedWithRetry 3 (fun _ =>
            (Except.error (EmbedErr.providerError false) :
              Except EmbedErr Nat))).2.2 = []) := by
  decide

theorem retryGo_made_le (atts : Nat → Except EmbedErr α) (mr : Nat) :
    ∀ (r attempt made : Nat) (waits : List Nat),
      (retryGo atts mr r attempt made waits).2.1 ≤ made + r := by
  intro r
  induction r with
  | zero => intro attempt made waits; simp [retryGo]
  | succ r ih =>
    intro attempt made waits
    rw [retryGo]
    cases h : atts attempt with
    | ok v => dsimp only; omega
    | error e =>
      cases e with
      | rateLimit =>
        dsimp only
        by_cases hlt : attempt < mr
        · rw [if_pos hlt]
          calc (retryGo atts mr r (attempt + 1) (made + 1)
                  (waits ++ [2 ^ attempt])).2.1 ≤ (made + 1) + r := ih _ _ _
            _ ≤ made + (r + 1) := by omega
        · rw [if_neg hlt]; dsimp only; omega
      | providerError b =>
        dsimp only
        by_cases hlt : attempt < mr
        · rw [if_pos hlt]
          calc (retryGo atts mr r (attempt + 1) (made + 1)
                  (waits ++ [2 ^ attempt])).2.1 ≤ (made + 1) + r := ih _ _ _
            _ ≤ made + (r + 1) := by omega
        · rw [if_neg hlt]; dsimp only; omega
      | unexpected => dsimp only; omega
      | exhausted => dsimp only; omega

theorem retryGo_all_retry (atts : Nat → Except EmbedErr α) (mr : Nat)
    (hall : ∀ i, isRetryableErr (atts i) = true) :
    ∀ (r attempt made : Nat) (waits : List Nat), 1 ≤ r → attempt + r = mr + 1 →
      retryGo atts mr r attempt made waits =
        (atts mr, made + r,
          waits ++ (List.range' attempt (r - 1)).map (fun a => 2 ^ a)) := by
  intro r
  induction r with
  | zero => intro attempt made waits h1; omega
  | succ r ih =>
    intro attempt made waits h1 h2
    have hcases : atts attempt = Except.error EmbedErr.rateLimit ∨
        ∃ b, atts attempt = Except.error (EmbedErr.providerError b) := by
      have := hall attempt
      cases ha : atts attempt with
      | ok v => rw [ha] at this; simp [isRetryableErr] at this
      | error e =>
        cases e with
        | rateLimit => exact Or.inl rfl
        | providerError b => exact Or.inr ⟨b, rfl⟩
        | unexpected => rw [ha] at this; simp [isRetryableErr] at this
        | exhausted => rw [ha] at this; simp [isRetryableErr] at this
    cases r with
    | zero =>
      have hat : attempt = mr := by omega
      subst hat
      rw [retryGo]
      rcases hcases with h | ⟨b, h⟩ <;>
        · rw [h]
          simp [retryGo]
    | succ r' =>
      have hlt : attempt < mr := by omega
      have step : retryGo atts mr (r' + 1 + 1) attempt made waits =
          retryGo atts mr (r' + 1) (attempt + 1) (made + 1)
            (waits ++ [2 ^ attempt]) := by
        rw [retryGo]
        rcases hcases with h | ⟨b, h⟩ <;>
          · rw [h]
            simp [hlt]
      rw [step, ih (attempt + 1) (made + 1) (waits ++ [2 ^ attempt])
        (by omega) (by omega)]
      have hr : List.range' attempt (r' + 1) =
          attempt :: List.range' (attempt + 1) r' := List.range'_succ _ _ _
      simp only [Nat.add_sub_cancel] at *
      rw [hr]
      simp only [List.map_cons, List.append_assoc, List.singleton_append]
      have harith : made + 1 + (r' + 1) = made + (r' + 1 + 1) := by omega
      rw [harith]

/-- Claim C9 (amended): the Embedder makes at most `max_retries` attempts; on
any provider error (`OpenAIError`) — rate limit or not, retryable or not — it
waits `2 ^ attempt` seconds before retrying, and after the final failed
attempt the final error propagates; an exception that is not a provider error
propagates immediately with no attempt repeated and no backoff. -/
theorem claim_C9_amended (mr : Nat) (atts : Nat → Except EmbedErr Nat)
    (hmr : 1 ≤ mr) :
    (embedWithRetry mr atts).2.1 ≤ mr
    ∧ ((∀ i, isRetryableErr (atts i) = true) →
        embedWithRetry mr atts =
          (atts mr, mr, (List.range' 1 (mr - 1)).map (fun a => 2 ^ a)))
    ∧ (atts 1 = Except.error EmbedErr.unexpected →
        embedWithRetry mr atts = (Except.error EmbedErr.unexpected, 1, [])) := by
  refine ⟨?_, ?_, ?_⟩
  · have := retryGo_made_le atts mr mr 1 0 []
    simpa [embedWithRetry] using this
  · intro hall
    have := retryGo_all_retry atts mr hall mr 1 0 [] hmr (by omega)
    simpa [embedWithRetry] using this
  · intro h1
    obtain ⟨m, rfl⟩ : ∃ m, mr = m + 1 := ⟨mr - 1, by omega⟩
    rw [embedWithRetry, retryGo, h1]

/-- Witness for `claim_C9_amended`: `max_retries = 3` with every attempt a
non-retryable provider error gives 3 attempts and backoffs `[2, 4]`. -/
theorem claim_C9_witness :
    embedWithRetry 3 (fun _ =>
        (Except.error (EmbedErr.providerError false) : Except EmbedErr Nat)) =
      (Except.error (EmbedErr.providerError false), 3, [2, 4]) := by
  have h := (claim_C9_amended 3
    (fun _ => Except.error (EmbedErr.providerError false))
    (by decide)).2.1 (fun i => rfl)
  exact h.trans rfl

/-! Chunk-index bookkeeping (claim C7): within each `_create_text_chunks`
and `_create_code_chunks` call the emitted chunks carry consecutive indices
from the start index, and `chunk_sections` threads the counter so that the
whole document's indices are `0, 1, 2, …` in emission order. -/

/-- Index of a chunk, as stored in its metadata. -/
def cIdx (c : ContentChunk) : Nat := c.meta.chunkIndex

theorem textGo_indices (tc : List Char → Nat) (maxT : Nat)
    (sec : MarkdownSection) (start : Nat) (ty : ChunkType) :
    ∀ (paras : List (List Char)) (chunks : List ContentChunk)
      (cur : List Char) (curTok count : Nat),
      chunks.map cIdx = List.range' start count → chunks.length = count →
      (textGo tc maxT sec start ty paras chunks cur curTok count).map cIdx =
        List.range' start
          (textGo tc maxT sec start ty paras chunks cur curTok count).length := by
  intro paras
  induction paras with
  | nil =>
    intro chunks cur curTok count hmap hlen
    rw [textGo]
    by_cases hcur : cur = []
    · rw [if_pos hcur, hmap, hlen]
    · rw [if_neg hcur]
      have : (chunks ++ [mkChunk cur sec (start + count) ty]).map cIdx =
          List.range' start (count + 1) := by
        rw [List.map_append, hmap]
        have := @List.range'_concat 1 start count
        simp only [one_mul] at this
        rw [this]
        rfl
      rw [this]
      simp [hlen]
  | cons p ps ih =>
    intro chunks cur curTok count hmap hlen
    rw [textGo]
    by_cases hfit : curTok + tc p ≤ maxT
    · rw [if_pos hfit]
      exact ih _ _ _ _ hmap hlen
    · rw [if_neg hfit]
      by_cases hcur : cur = []
      · rw [if_pos hcur]
        exact ih _ _ _ _ hmap hlen
      · rw [if_neg hcur]
        refine ih _ _ _ _ ?_ ?_
        · rw [List.map_append, hmap]
          have := @List.range'_concat 1 start count
          simp only [one_mul] at this
          rw [this]
          rfl
        · simp [hlen]

theorem createTextChunks_indices (tc : List Char → Nat) (maxT : Nat)
    (sec : MarkdownSection) (start : Nat) (ty : ChunkType) :
    (createTextChunks tc maxT sec start ty).map cIdx =
      List.range' start (createTextChunks tc maxT sec start ty).length := by
  unfold createTextChunks
  by_cases h1 : pyStrip sec.content = []
  · simp [h1]
  · rw [if_neg h1]
    by_cases h2 : tc (pyStrip sec.content) ≤ maxT
    · rw [if_pos h2]
      simp [cIdx, mkChunk, buildMetadata, List.range']
    · rw [if_neg h2]
      exact textGo_indices tc maxT sec start ty _ [] [] 0 0 rfl rfl

theorem codeGo_indices (sec : MarkdownSection) :
    ∀ (bs : List (List Char × List Char)) (i : Nat),
      (codeGo sec i bs).map cIdx = List.range' i bs.length := by
  intro bs
  induction bs with
  | nil => intro i; rfl
  | cons b bs ih =>
    intro i
    rw [codeGo]
    simp only [List.map_cons, List.length_cons]
    rw [List.range'_succ]
    rw [ih (i + 1)]
    rfl

theorem codeGo_length (sec : MarkdownSection) :
    ∀ (bs : List (List Char × List Char)) (i : Nat),
      (codeGo sec i bs).length = bs.length := by
  intro bs
  induction bs with
  | nil => intro i; rfl
  | cons b bs ih => intro i; simp [codeGo, ih]

theorem createCodeChunks_indices (sec : MarkdownSection) (start : Nat) :
    (createCodeChunks sec start).map cIdx =
      List.range' start (extractCodeBlocks sec.content).length :=
  codeGo_indices sec _ start

theorem createCodeChunks_length (sec : MarkdownSection) (start : Nat) :
    (createCodeChunks sec start).length =
      (extractCodeBlocks sec.content).length :=
  codeGo_length sec _ start

theorem range1_append (s m n : Nat) :
    List.range' s m ++ List.range' (s + m) n = List.range' s (m + n) := by
  have h := List.range'_append s m n 1
  simp only [one_mul] at h
  rw [Nat.add_comm m n]
  exact h

theorem chunkGo_indices (tc : List Char → Nat) (maxT : Nat) :
    ∀ (secs : List MarkdownSection) (idx : Nat),
      (chunkGo tc maxT secs idx).map cIdx =
        List.range' idx (chunkGo tc maxT secs idx).length := by
  intro secs
  induction secs with
  | nil => intro idx; rfl
  | cons sec rest ih =>
    intro idx
    rw [chunkGo]
    by_cases hc : hasCodeBlocks sec.content
    · rw [if_pos hc]
      simp only [List.map_append, List.length_append]
      rw [createTextChunks_indices, ih, createCodeChunks_indices,
        createCodeChunks_length]
      rw [range1_append]
      rw [Nat.add_assoc idx
        (createTextChunks tc maxT sec idx ChunkType.text_with_code).length
        (extractCodeBlocks sec.content).length]
      rw [range1_append]
    · rw [if_neg hc]
      simp only [List.map_append, List.length_append]
      rw [createTextChunks_indices, ih]
      rw [range1_append]

/-- Claim C7: for every list of sections from one document, the chunk_index
values of the chunks returned by `chunk_sections`, read in emission order, are
exactly `0, 1, 2, …` — strictly increasing with no gaps. -/
theorem claim_C7_chunk_index_contiguous (tc : List Char → Nat) (maxT : Nat)
    (sections : List MarkdownSection) :
    (chunkSections tc maxT sections).map cIdx =
      List.range ((chunkSections tc maxT sections).length) := by
  rw [List.range_eq_range']
  exact chunkGo_indices tc maxT sections 0

/-! Hierarchy-stack lemmas (claim C8). -/

theorem dropEndWhile_sublist (p : α → Bool) :
    ∀ l : List α, (dropEndWhile p l).Sublist l := by
  intro l
  induction l with
  | nil => exact List.Sublist.refl []
  | cons a l ih =>
    rw [dropEndWhile]
    cases hd : dropEndWhile p l with
    | nil =>
      by_cases hp : p a
      · simp [hp]
      · simp [hp]
    | cons b l' =>
      rw [hd] at ih
      exact ih.cons₂ a

theorem dropEndWhile_lt {lv : Nat} :
    ∀ {l : List (Nat × String)},
      List.Pairwise (fun a b => a.1 < b.1) l →
      ∀ a ∈ dropEndWhile (fun q => decide (lv ≤ q.1)) l, a.1 < lv := by
  intro l
  induction l with
  | nil => intro _ a ha; simp [dropEndWhile] at ha
  | cons x t ih =>
    intro hp a ha
    have hx : ∀ b ∈ t, x.1 < b.1 := (List.pairwise_cons.mp hp).1
    have hpt : List.Pairwise (fun a b => a.1 < b.1) t :=
      (List.pairwise_cons.mp hp).2
    rw [dropEndWhile] at ha
    cases hd : dropEndWhile (fun q => decide (lv ≤ q.1)) t with
    | nil =>
      rw [hd] at ha
      by_cases hpx : lv ≤ x.1
      · simp [hpx] at ha
      · simp [hpx] at ha
        subst ha
        omega
    | cons b l' =>
      rw [hd] at ha
      rcases List.mem_cons.mp ha with h1 | h1
      · subst h1
        have hb : b ∈ dropEndWhile (fun q => decide (lv ≤ q.1)) t := by
          rw [hd]; simp
        have hbt : b ∈ t := (dropEndWhile_sublist _ t).mem hb
        have := ih hpt b (by rw [hd]; simp)
        have := hx b hbt
        omega
      · exact ih hpt a (by rw [hd]; exact h1)

theorem hierStep_pairwise {st : List (Nat × String)} (h : Nat × String)
    (hp : List.Pairwise (fun a b => a.1 < b.1) st) :
    List.Pairwise (fun a b => a.1 < b.1) (hierStep st h) := by
  unfold hierStep
  rw [List.pairwise_append]
  refine ⟨List.Pairwise.sublist (dropEndWhile_sublist _ st) hp,
    List.pairwise_singleton _ _, ?_⟩
  intro a ha b hb
  rw [List.mem_singleton] at hb
  subst hb
  exact dropEndWhile_lt hp a ha

theorem hierGo_spec :
    ∀ (hs : List (Nat × String)) (st0 : List (Nat × String)),
      List.Pairwise (fun a b => a.1 < b.1) st0 →
      ∀ (i : Nat) (own : Nat × String), hs.get? i = some own →
        ∃ anc, (hierGo st0 hs).get? i = some (anc ++ [own]) ∧
          List.Pairwise (fun a b => a.1 < b.1) (anc ++ [own]) ∧
          anc.Sublist (st0 ++ hs.take i) ∧
          ∀ p ∈ anc, p.1 < own.1 := by
  intro hs
  induction hs with
  | nil => intro st0 _ i own h; simp at h
  | cons hd tl ih =>
    intro st0 hp0 i own h
    cases i with
    | zero =>
      rw [List.get?_cons_zero] at h
      injection h with h1
      subst h1
      refine ⟨dropEndWhile (fun q => decide (hd.1 ≤ q.1)) st0, ?_, ?_, ?_, ?_⟩
      · rfl
      · exact hierStep_pairwise hd hp0
      · simp only [List.take_zero, List.append_nil]
        exact dropEndWhile_sublist _ st0
      · exact dropEndWhile_lt hp0
    | succ j =>
      rw [List.get?_cons_succ] at h
      have hp' : List.Pairwise (fun a b => a.1 < b.1) (hierStep st0 hd) :=
        hierStep_pairwise hd hp0
      obtain ⟨anc, h1, h2, h3, h4⟩ := ih (hierStep st0 hd) hp' j own h
      refine ⟨anc, h1, h2, ?_, h4⟩
      have hs1 : (hierStep st0 hd) ++ tl.take j =
          dropEndWhile (fun q => decide (hd.1 ≤ q.1)) st0 ++ (hd :: tl.take j) := by
        unfold hierStep
        simp
      have hs2 : (dropEndWhile (fun q => decide (hd.1 ≤ q.1)) st0 ++
          (hd :: tl.take j)).Sublist (st0 ++ (hd :: tl.take j)) :=
        (dropEndWhile_sublist _ st0).append (List.Sublist.refl _)
      have h3' : anc.Sublist (dropEndWhile (fun q => decide (hd.1 ≤ q.1)) st0 ++
          (hd :: tl.take j)) := hs1 ▸ h3
      have htake : (hd :: tl).take (j + 1) = hd :: tl.take j := rfl
      rw [htake]
      exact h3'.trans hs2

/-- Claim C8: for every document and every section produced by the parser,
the section's ancestor list (`heading_hierarchy`, the stack minus its top)
consists of headings with strictly increasing levels from root to immediate
parent, is a sublist of the strictly earlier heading matches (so every
ancestor appears earlier in the document), and every ancestor has level
strictly below the section's own — in particular the stack entry of the
section's own heading is never among its ancestors. -/
theorem claim_C8_hierarchy (hs : List (Nat × String)) (i : Nat)
    (own : Nat × String) (h : hs.get? i = some own) :
    ∃ anc, (hierStacks hs).get? i = some (anc ++ [own]) ∧
      (sectionHierarchies hs).get? i = some (anc.map Prod.snd) ∧
      List.Pairwise (fun a b => a.1 < b.1) (anc ++ [own]) ∧
      anc.Sublist (hs.take i) ∧
      ∀ p ∈ anc, p.1 < own.1 := by
  obtain ⟨anc, h1, h2, h3, h4⟩ :=
    hierGo_spec hs [] (List.Pairwise.nil) i own h
  rw [List.nil_append] at h3
  refine ⟨anc, h1, ?_, h2, h3, h4⟩
  have hsec : sectionHierarchies hs =
      (hierGo [] hs).map (fun st => st.dropLast.map Prod.snd) := rfl
  rw [hsec, List.get?_map]
  have h1' : (hierGo [] hs).get? i = some (anc ++ [own]) := h1
  rw [h1']
  simp [List.dropLast_concat]

/-- Witness for `claim_C8_hierarchy` on the document `# A` / `## B`: the
second section has ancestor stack `[(1, "A")]`. -/
theorem claim_C8_witness :
    ∃ anc, (hierStacks [(1, "A"), (2, "B")]).get? 1 =
        some (anc ++ [((2 : Nat), "B")]) ∧
      (sectionHierarchies [(1, "A"), (2, "B")]).get? 1 =
        some (anc.map Prod.snd) ∧
      List.Pairwise (fun a b => a.1 < b.1) (anc ++ [((2 : Nat), "B")]) ∧
      anc.Sublist ([((1 : Nat), "A"), ((2 : Nat), "B")].take 1) ∧
      ∀ p ∈ anc, p.1 < 2 :=
  claim_C8_hierarchy [(1, "A"), (2, "B")] 1 (2, "B") rfl

/-! Paragraph-accumulation lemmas for `_create_text_chunks` (claims C5, C6). -/

theorem joinB_cons_ne (x : List Char) {l : List (List Char)} (h : l ≠ []) :
    joinB (x :: l) = x ++ blank ++ joinB l := by
  cases l with
  | nil => exact absurd rfl h
  | cons y ys => rfl

theorem joinB_concat {g : List (List Char)} (p : List Char) (h : g ≠ []) :
    joinB (g ++ [p]) = joinB g ++ blank ++ p := by
  induction g with
  | nil => exact absurd rfl h
  | cons x xs ih =>
    cases xs with
    | nil => simp [joinB]
    | cons y ys =>
      rw [List.cons_append]
      rw [joinB_cons_ne x (by simp)]
      rw [joinB_cons_ne x (l := y :: ys) (by simp)]
      rw [ih (by simp)]
      simp [List.append_assoc]

theorem joinB_merge (a b : List Char) :
    ∀ (xs ys : List (List Char)),
      joinB (xs ++ (a ++ blank ++ b) :: ys) = joinB (xs ++ a :: b :: ys) := by
  intro xs
  induction xs with
  | nil =>
    intro ys
    cases ys with
    | nil => simp [joinB]
    | cons y ys' =>
      rw [List.nil_append, List.nil_append]
      rw [joinB_cons_ne _ (by simp)]
      rw [joinB_cons_ne a (l := b :: y :: ys') (by simp)]
      rw [joinB_cons_ne b (l := y :: ys') (by simp)]
      simp [List.append_assoc]
  | cons x xs' ih =>
    intro ys
    rw [List.cons_append, List.cons_append]
    rw [joinB_cons_ne x (by simp)]
    rw [joinB_cons_ne x (by simp)]
    rw [ih ys]

/-- A chunk text is a `"\n\n"`-join of a nonempty group of the body's
paragraphs, the group being either a single paragraph (possibly over budget,
emitted whole) or one whose paragraph token counts sum within the budget. -/
def GoodChunkText (tc : List Char → Nat) (maxT : Nat)
    (paras0 : List (List Char)) (t : List Char) : Prop :=
  ∃ g, g ≠ [] ∧ (∀ p ∈ g, p ∈ paras0) ∧ t = joinB g ∧
    ((∃ p, g = [p]) ∨ (g.map tc).sum ≤ maxT)

theorem textGo_good (tc : List Char → Nat) (maxT : Nat)
    (sec : MarkdownSection) (start : Nat) (ty : ChunkType)
    (paras0 : List (List Char)) :
    ∀ (paras : List (List Char)), (∀ p ∈ paras, p ∈ paras0) →
    ∀ (chunks : List ContentChunk) (cur : List Char) (curTok count : Nat),
      (∀ c ∈ chunks, GoodChunkText tc maxT paras0 c.text) →
      (cur = [] ∨ ∃ g, g ≠ [] ∧ (∀ p ∈ g, p ∈ paras0) ∧ cur = joinB g ∧
        ((∃ p, g = [p]) ∨ (g.map tc).sum ≤ maxT) ∧ (g.map tc).sum ≤ curTok) →
      ∀ c ∈ textGo tc maxT sec start ty paras chunks cur curTok count,
        GoodChunkText tc maxT paras0 c.text := by
  intro paras
  induction paras with
  | nil =>
    intro _ chunks cur curTok count hchunks hcur c hc
    rw [textGo] at hc
    by_cases hnil : cur = []
    · rw [if_pos hnil] at hc
      exact hchunks c hc
    · rw [if_neg hnil] at hc
      rcases List.mem_append.mp hc with h | h
      · exact hchunks c h
      · rw [List.mem_singleton] at h
        subst h
        rcases hcur with h | ⟨g, hg1, hg2, hg3, hg4, _⟩
        · exact absurd h hnil
        · exact ⟨g, hg1, hg2, hg3, hg4⟩
  | cons p ps ih =>
    intro hmem chunks cur curTok count hchunks hcur c hc
    have hp : p ∈ paras0 := hmem p (by simp)
    have hmem' : ∀ q ∈ ps, q ∈ paras0 := fun q hq => hmem q (by simp [hq])
    rw [textGo] at hc
    by_cases hfit : curTok + tc p ≤ maxT
    · rw [if_pos hfit] at hc
      by_cases hnil : cur = []
      · rw [if_pos hnil] at hc
        refine ih hmem' _ _ _ _ hchunks (Or.inr ⟨[p], by simp, ?_, ?_, ?_, ?_⟩)
          c hc
        · intro q hq; rw [List.mem_singleton] at hq; subst hq; exact hp
        · rfl
        · exact Or.inl ⟨p, rfl⟩
        · simp
      · rw [if_neg hnil] at hc
        rcases hcur with h | ⟨g, hg1, hg2, hg3, hg4, hg5⟩
        · exact absurd h hnil
        refine ih hmem' _ _ _ _ hchunks (Or.inr ⟨g ++ [p], by simp, ?_, ?_, ?_, ?_⟩)
          c hc
        · intro q hq
          rcases List.mem_append.mp hq with h | h
          · exact hg2 q h
          · rw [List.mem_singleton] at h; subst h; exact hp
        · rw [hg3, joinB_concat p hg1]
        · refine Or.inr ?_
          simp only [List.map_append, List.sum_append, List.map_cons,
            List.sum_cons, List.map_nil, List.sum_nil]
          omega
        · simp only [List.map_append, List.sum_append, List.map_cons,
            List.sum_cons, List.map_nil, List.sum_nil]
          omega
    · rw [if_neg hfit] at hc
      by_cases hnil : cur = []
      · rw [if_pos hnil] at hc
        refine ih hmem' _ _ _ _ hchunks (Or.inr ⟨[p], by simp, ?_, rfl, ?_, ?_⟩)
          c hc
        · intro q hq; rw [List.mem_singleton] at hq; subst hq; exact hp
        · exact Or.inl ⟨p, rfl⟩
        · simp
      · rw [if_neg hnil] at hc
        rcases hcur with h | ⟨g, hg1, hg2, hg3, hg4, _⟩
        · exact absurd h hnil
        refine ih hmem' _ _ _ _ ?_ (Or.inr ⟨[p], by simp, ?_, rfl, ?_, ?_⟩) c hc
        · intro c' hc'
          rcases List.mem_append.mp hc' with h | h
          · exact hchunks c' h
          · rw [List.mem_singleton] at h
            subst h
            exact ⟨g, hg1, hg2, hg3, hg4⟩
        · intro q hq; rw [List.mem_singleton] at hq; subst hq; exact hp
        · exact Or.inl ⟨p, rfl⟩
        · simp

theorem createTextChunks_good (tc : List Char → Nat) (maxT : Nat)
    (sec : MarkdownSection) (start : Nat) (ty : ChunkType) :
    ∀ c ∈ createTextChunks tc maxT sec start ty,
      (tc (pyStrip sec.content) ≤ maxT ∧ c.text = pyStrip sec.content) ∨
      GoodChunkText tc maxT (pySplit2 (pyStrip sec.content)) c.text := by
  intro c hc
  unfold createTextChunks at hc
  by_cases h1 : pyStrip sec.content = []
  · rw [if_pos h1] at hc; simp at hc
  · rw [if_neg h1] at hc
    by_cases h2 : tc (pyStrip sec.content) ≤ maxT
    · rw [if_pos h2] at hc
      rw [List.mem_singleton] at hc
      subst hc
      exact Or.inl ⟨h2, rfl⟩
    · rw [if_neg h2] at hc
      exact Or.inr (textGo_good tc maxT sec start ty _ _ (fun p hp => hp)
        [] [] 0 0 (by simp) (Or.inl rfl) c hc)

theorem textGo_cover (tc : List Char → Nat) (maxT : Nat)
    (sec : MarkdownSection) (start : Nat) (ty : ChunkType) :
    ∀ (remaining : List (List Char)), [] ∉ remaining →
    ∀ (chunks : List ContentChunk) (cur : List Char) (curTok count : Nat),
      cur ≠ [] →
      joinB ((textGo tc maxT sec start ty remaining chunks cur curTok
          count).map ContentChunk.text) =
        joinB (chunks.map ContentChunk.text ++ cur :: remaining) := by
  intro remaining
  induction remaining with
  | nil =>
    intro _ chunks cur curTok count hcur
    rw [textGo, if_neg hcur]
    simp [mkChunk]
  | cons p ps ih =>
    intro hnem chunks cur curTok count hcur
    have hpne : p ≠ [] := by
      intro hp
      exact hnem (by rw [← hp] at *; simp)
    have hnem' : [] ∉ ps := fun hmem => hnem (by simp [hmem])
    rw [textGo]
    by_cases hfit : curTok + tc p ≤ maxT
    · rw [if_pos hfit, if_neg hcur]
      rw [ih hnem' chunks (cur ++ blank ++ p) (curTok + tc p) count
        (by simp [hcur])]
      rw [joinB_merge]
    · rw [if_neg hfit, if_neg hcur]
      rw [ih hnem' (chunks ++ [mkChunk cur sec (start + count) ty]) p (tc p)
        (count + 1) hpne]
      simp [mkChunk, List.append_assoc]

theorem createTextChunks_cover (tc : List Char → Nat) (maxT : Nat)
    (sec : MarkdownSection) (start : Nat) (ty : ChunkType)
    (hne : pyStrip sec.content ≠ [])
    (hnil : [] ∉ pySplit2 (pyStrip sec.content)) :
    joinB ((createTextChunks tc maxT sec start ty).map ContentChunk.text) =
      pyStrip sec.content := by
  unfold createTextChunks
  rw [if_neg hne]
  by_cases h2 : tc (pyStrip sec.content) ≤ maxT
  · rw [if_pos h2]
    simp [mkChunk, joinB]
  · rw [if_neg h2]
    cases hsp : pySplit2 (pyStrip sec.content) with
    | nil => exact absurd hsp (pySplit2_ne_nil _)
    | cons p ps =>
      have hpne : p ≠ [] := by
        intro hp
        rw [hsp] at hnil
        exact hnil (by rw [hp]; simp)
      have hnem' : [] ∉ ps := by
        intro hmem
        rw [hsp] at hnil
        exact hnil (by simp [hmem])
      have hjoin : joinB (p :: ps) = pyStrip sec.content := by
        rw [← hsp]; exact joinB_pySplit2 _
      rw [textGo]
      by_cases hfit : (0 : Nat) + tc p ≤ maxT
      · rw [if_pos hfit]
        rw [if_pos rfl]
        rw [textGo_cover tc maxT sec start ty ps hnem' [] p (0 + tc p) 0 hpne]
        simpa using hjoin
      · rw [if_neg hfit]
        rw [if_pos rfl]
        rw [textGo_cover tc maxT sec start ty ps hnem' [] p (tc p) 0 hpne]
        simpa using hjoin

theorem textGo_type (tc : List Char → Nat) (maxT : Nat)
    (sec : MarkdownSection) (start : Nat) (ty : ChunkType) :
    ∀ (paras : List (List Char)) (chunks : List ContentChunk)
      (cur : List Char) (curTok count : Nat),
      (∀ c ∈ chunks, c.chunkType = ty) →
      ∀ c ∈ textGo tc maxT sec start ty paras chunks cur curTok count,
        c.chunkType = ty := by
  intro paras
  induction paras with
  | nil =>
    intro chunks cur curTok count hch c hc
    rw [textGo] at hc
    by_cases hnil : cur = []
    · rw [if_pos hnil] at hc; exact hch c hc
    · rw [if_neg hnil] at hc
      rcases List.mem_append.mp hc with h | h
      · exact hch c h
      · rw [List.mem_singleton] at h; subst h; rfl
  | cons p ps ih =>
    intro chunks cur curTok count hch c hc
    rw [textGo] at hc
    by_cases hfit : curTok + tc p ≤ maxT
    · rw [if_pos hfit] at hc
      exact ih _ _ _ _ hch c hc
    · rw [if_neg hfit] at hc
      by_cases hnil : cur = []
      · rw [if_pos hnil] at hc
        exact ih _ _ _ _ hch c hc
      · rw [if_neg hnil] at hc
        refine ih _ _ _ _ ?_ c hc
        intro c' hc'
        rcases List.mem_append.mp hc' with h | h
        · exact hch c' h
        · rw [List.mem_singleton] at h; subst h; rfl

theorem createTextChunks_type (tc : List Char → Nat) (maxT : Nat)
    (sec : MarkdownSection) (start : Nat) (ty : ChunkType) :
    ∀ c ∈ createTextChunks tc maxT sec start ty, c.chunkType = ty := by
  intro c hc
  unfold createTextChunks at hc
  by_cases h1 : pyStrip sec.content = []
  · rw [if_pos h1] at hc; simp at hc
  · rw [if_neg h1] at hc
    by_cases h2 : tc (pyStrip sec.content) ≤ maxT
    · rw [if_pos h2] at hc
      rw [List.mem_singleton] at hc; subst hc; rfl
    · rw [if_neg h2] at hc
      exact textGo_type tc maxT sec start ty _ [] [] 0 0 (by simp) c hc

theorem codeGo_type (sec : MarkdownSection) :
    ∀ (bs : List (List Char × List Char)) (i : Nat),
      ∀ c ∈ codeGo sec i bs, c.chunkType = ChunkType.code_only := by
  intro bs
  induction bs with
  | nil => intro i c hc; simp [codeGo] at hc
  | cons b bs ih =>
    intro i c hc
    rw [codeGo] at hc
    rcases List.mem_cons.mp hc with h | h
    · subst h; rfl
    · exact ih (i + 1) c h

theorem codeGo_texts (sec : MarkdownSection) :
    ∀ (bs : List (List Char × List Char)) (i : Nat),
      (codeGo sec i bs).map ContentChunk.text = bs.map Prod.snd := by
  intro bs
  induction bs with
  | nil => intro i; rfl
  | cons b bs ih => intro i; simp [codeGo, ih]

theorem mem_chunkGo (tc : List Char → Nat) (maxT : Nat) :
    ∀ (secs : List MarkdownSection) (idx : Nat) (c : ContentChunk),
      c ∈ chunkGo tc maxT secs idx →
      ∃ sec ∈ secs,
        (∃ j, c ∈ createTextChunks tc maxT sec j ChunkType.text_with_code) ∨
        (∃ j, c ∈ createCodeChunks sec j) := by
  intro secs
  induction secs with
  | nil => intro idx c hc; simp [chunkGo] at hc
  | cons sec rest ih =>
    intro idx c hc
    rw [chunkGo] at hc
    by_cases hcode : hasCodeBlocks sec.content
    · rw [if_pos hcode] at hc
      rcases List.mem_append.mp hc with h | h
      · rcases List.mem_append.mp h with h1 | h1
        · exact ⟨sec, by simp, Or.inl ⟨idx, h1⟩⟩
        · exact ⟨sec, by simp, Or.inr ⟨_, h1⟩⟩
      · obtain ⟨s, hs, hd⟩ := ih _ c h
        exact ⟨s, by simp [hs], hd⟩
    · rw [if_neg hcode] at hc
      rcases List.mem_append.mp hc with h | h
      · exact ⟨sec, by simp, Or.inl ⟨idx, h⟩⟩
      · obtain ⟨s, hs, hd⟩ := ih _ c h
        exact ⟨s, by simp [hs], hd⟩

/-- A section with one fenced code block and no empty paragraph, for the C6
witness. -/
def secCodeOk : MarkdownSection :=
  { heading := "H".toList, level := 1, content := "```\nA\n```\n\ny".toList,
    headingHierarchy := [], sourceFile := "f.md".toList, lineNumber := 1 }

/-- Claim C5, counterexample: with `max_tokens = 2` and the cl100k-faithful
token counts (`tcModel`), the body `"a\n\nb\n\nc"` (three one-token
paragraphs) produces a chunk `"a\n\nb"` whose own token count is 3 — over the
budget — although it is not a single over-budget paragraph (each of its
paragraphs has one token; the uncounted `"\n\n"` separator is the third
token). -/
theorem claim_C5_counterexample :
    ∃ c ∈ chunkSections tcModel 2 [secThreeParas],
      c.chunkType ≠ ChunkType.code_only ∧ ¬ tcModel c.text ≤ 2 ∧
      c.text ∉ pySplit2 (pyStrip secThreeParas.content) := by
  decide

/-- Claim C5 (amended): every chunk of `chunk_sections` with
`chunk_type ≠ code_only` is either the whole (stripped) section body with
`token_count(body) ≤ max_tokens`, or the `"\n\n"`-join of a nonempty group of
the body's paragraphs that is a single paragraph (emitted whole even when it
alone exceeds the budget — a paragraph is never split across chunks) or whose
paragraph token counts sum to at most `max_tokens`; the joined chunk's own
token count may exceed `max_tokens` by the tokens of the re-inserted
separators, which the accumulation loop does not count. -/
theorem claim_C5_amended (tc : List Char → Nat) (maxT : Nat)
    (sections : List MarkdownSection) (c : ContentChunk)
    (hc : c ∈ chunkSections tc maxT sections)
    (hty : c.chunkType ≠ ChunkType.code_only) :
    ∃ sec ∈ sections,
      (tc (pyStrip sec.content) ≤ maxT ∧ c.text = pyStrip sec.content) ∨
      GoodChunkText tc maxT (pySplit2 (pyStrip sec.content)) c.text := by
  obtain ⟨sec, hsec, hd⟩ := mem_chunkGo tc maxT sections 0 c hc
  rcases hd with ⟨j, hj⟩ | ⟨j, hj⟩
  · exact ⟨sec, hsec, createTextChunks_good tc maxT sec j _ c hj⟩
  · exact absurd (codeGo_type sec _ j c hj) hty

/-- Witness for `claim_C5_amended` at a one-paragraph section. -/
theorem claim_C5_witness :
    ∃ sec ∈ [secPlain],
      (tcModel (pyStrip sec.content) ≤ 2 ∧
        (mkChunk "hello".toList secPlain 0 ChunkType.text_with_code).text =
          pyStrip sec.content) ∨
      GoodChunkText tcModel 2 (pySplit2 (pyStrip sec.content))
        (mkChunk "hello".toList secPlain 0 ChunkType.text_with_code).text :=
  claim_C5_amended tcModel 2 [secPlain]
    (mkChunk "hello".toList secPlain 0 ChunkType.text_with_code)
    (by decide) (by decide)

/-- Claim C6, counterexample: for a section whose body is a fenced code block
followed by an empty paragraph and a final paragraph
(`"```\nA\n```\n\n\n\ny"`), chunking with `max_tokens = 2` emits the right
`code_only` chunk, but the prose chunk texts do not cover the entire section
body: a blank line is lost (the chunks' joined text, and indeed their total
character mass plus maximal separators, falls short of the body). -/
theorem claim_C6_counterexample :
    (extractCodeBlocks secCodeGap.content).length = 1
    ∧ ((chunkSections tcModel 2 [secCodeGap]).filter
        (fun c => ¬ c.chunkType = ChunkType.code_only)).map ContentChunk.text =
      ["```\nA\n```".toList, "y".toList]
    ∧ joinB (((chunkSections tcModel 2 [secCodeGap]).filter
        (fun c => ¬ c.chunkType = ChunkType.code_only)).map
          ContentChunk.text) ≠ secCodeGap.content
    ∧ ((((chunkSections tcModel 2 [secCodeGap]).filter
          (fun c => ¬ c.chunkType = ChunkType.code_only)).map
            (fun c => c.text.length)).sum + 2 *
          (((chunkSections tcModel 2 [secCodeGap]).filter
            (fun c => ¬ c.chunkType = ChunkType.code_only)).length - 1) <
        secCodeGap.content.length) := by
  decide

/-- Claim C6 (amended): for a section whose body contains N ≥ 1 fenced code
blocks, `chunk_sections` emits exactly N `code_only` chunks whose texts are
the extracted code block bodies in order, plus at least one prose chunk; when
the body (already stripped by the parser) has no empty paragraphs, the prose
chunk texts joined by the paragraph separator equal the entire section body,
code included verbatim (with an empty paragraph adjacent to an over-budget
paragraph, a blank line may be dropped from the covered text). -/
theorem claim_C6_amended (tc : List Char → Nat) (maxT : Nat)
    (sec : MarkdownSection)
    (hN : 1 ≤ (extractCodeBlocks sec.content).length)
    (hstrip : pyStrip sec.content = sec.content)
    (hnil : [] ∉ pySplit2 sec.content) :
    ((chunkSections tc maxT [sec]).filter
        (fun c => c.chunkType = ChunkType.code_only)).map ContentChunk.text =
      (extractCodeBlocks sec.content).map Prod.snd
    ∧ 1 ≤ ((chunkSections tc maxT [sec]).filter
        (fun c => ¬ c.chunkType = ChunkType.code_only)).length
    ∧ joinB (((chunkSections tc maxT [sec]).filter
        (fun c => ¬ c.chunkType = ChunkType.code_only)).map
          ContentChunk.text) = sec.content := by
  have hscan : scanBlocks sec.content ≠ [] := by
    intro h
    have he : extractCodeBlocks sec.content = [] := by
      unfold extractCodeBlocks; rw [h]; rfl
    rw [he] at hN
    simp at hN
  have hcode : hasCodeBlocks sec.content = true := by
    unfold hasCodeBlocks
    cases h : scanBlocks sec.content with
    | nil => exact absurd h hscan
    | cons b bs => rfl
  have hcontent : sec.content ≠ [] := by
    intro h
    apply hscan
    rw [h]
    rfl
  have hne : pyStrip sec.content ≠ [] := by rw [hstrip]; exact hcontent
  have hnil' : [] ∉ pySplit2 (pyStrip sec.content) := by rw [hstrip]; exact hnil
  have hcs : chunkSections tc maxT [sec] =
      createTextChunks tc maxT sec 0 ChunkType.text_with_code ++
        createCodeChunks sec
          (0 + (createTextChunks tc maxT sec 0 ChunkType.text_with_code).length) := by
    unfold chunkSections
    rw [chunkGo, if_pos hcode]
    simp [chunkGo]
  have htfilter :
      (createTextChunks tc maxT sec 0 ChunkType.text_with_code).filter
        (fun c => c.chunkType = ChunkType.code_only) = [] := by
    rw [List.filter_eq_nil_iff]
    intro c hc
    have := createTextChunks_type tc maxT sec 0 ChunkType.text_with_code c hc
    simp [this]
  have htke :
      (createTextChunks tc maxT sec 0 ChunkType.text_with_code).filter
        (fun c => ¬ c.chunkType = ChunkType.code_only) =
        createTextChunks tc maxT sec 0 ChunkType.text_with_code := by
    rw [List.filter_eq_self]
    intro c hc
    have := createTextChunks_type tc maxT sec 0 ChunkType.text_with_code c hc
    simp [this]
  have hcfilter : ∀ j, (createCodeChunks sec j).filter
      (fun c => c.chunkType = ChunkType.code_only) = createCodeChunks sec j := by
    intro j
    rw [List.filter_eq_self]
    intro c hc
    have := codeGo_type sec _ j c hc
    simp [this]
  have hcke : ∀ j, (createCodeChunks sec j).filter
      (fun c => ¬ c.chunkType = ChunkType.code_only) = [] := by
    intro j
    rw [List.filter_eq_nil_iff]
    intro c hc
    have := codeGo_type sec _ j c hc
    simp [this]
  have hcover := createTextChunks_cover tc maxT sec 0 ChunkType.text_with_code
    hne hnil'
  refine ⟨?_, ?_, ?_⟩
  · rw [hcs, List.filter_append, htfilter, hcfilter, List.nil_append]
    exact codeGo_texts sec _ _
  · rw [hcs, List.filter_append, htke, hcke, List.append_nil]
    cases ht : createTextChunks tc maxT sec 0 ChunkType.text_with_code with
    | nil =>
      rw [ht] at hcover
      simp [joinB] at hcover
      rw [hstrip] at hcover
      exact absurd hcover hcontent
    | cons a l => simp
  · rw [hcs, List.filter_append, htke, hcke, List.append_nil]
    rw [hcover, hstrip]

/-- Witness for `claim_C6_amended` at a section with one code block and no
empty paragraph. -/
theorem claim_C6_witness :
    ((chunkSections tcModel 2 [secCodeOk]).filter
        (fun c => c.chunkType = ChunkType.code_only)).map ContentChunk.text =
      (extractCodeBlocks secCodeOk.content).map Prod.snd
    ∧ 1 ≤ ((chunkSections tcModel 2 [secCodeOk]).filter
        (fun c => ¬ c.chunkType = ChunkType.code_only)).length
    ∧ joinB (((chunkSections tcModel 2 [secCodeOk]).filter
        (fun c => ¬ c.chunkType = ChunkType.code_only)).map
          ContentChunk.text) = secCodeOk.content :=
  claim_C6_amended tcModel 2 secCodeOk (by decide) (by decide) (by decide)

end Spec2Proof
